import Mathlib

/-!
Shallow embedding of `examples/demo/scene/magnify.py` (vispy demo):
the `MagnifyTransform` CPU point mapping (`map` / `imap`), its transition
lookup-table builder (`_get_transition`), and the `MagCamera` animation
step (`view_mouse_event` wheel handling and `on_timer`).

Numbers are modelled over `ℝ`.  Where IEEE-754 semantics is observable in
the Python/numpy code (`0/0` producing NaN, comparisons with NaN being
false), it is modelled explicitly: scalar values that can be NaN live in
`Rn := Option ℝ` with `none` playing the role of NaN, and the convergence
test of `on_timer` is guarded so that a division by zero never counts as
"smaller than the tolerance" (in numpy, `0/0 = nan` and `x/0 = ±inf`, and
`nan < t` and `inf < t` are both false for the tolerances used here).
-/

open Real

/-- Scalar that may be NaN (`none` = NaN), mirroring numpy float semantics
on the operations used by `MagnifyTransform.map`. -/
def Rn : Type := Option ℝ

/-- NaN-propagating addition. -/
def addN : Rn → Rn → Rn
  | some a, some b => some (a + b)
  | _, _ => none

/-- NaN-propagating subtraction. -/
def subN : Rn → Rn → Rn
  | some a, some b => some (a - b)
  | _, _ => none

/-- NaN-propagating multiplication.  In IEEE arithmetic `nan * 0 = nan`,
which is the case this models (numpy: `unit * s` with `unit = nan`). -/
def mulN : Rn → Rn → Rn
  | some a, some b => some (a * b)
  | _, _ => none

/-- Square root: NaN in, NaN out; negative argument gives NaN (numpy).
In `MagnifyTransform.map` the argument is a sum of squares, so the
negative branch is unreachable for finite inputs. -/
noncomputable def sqrtN : Rn → Rn
  | none => none
  | some a => if a < 0 then none else some (Real.sqrt a)

/-- Division of a possibly-NaN numerator by a real denominator, as used in
`unit = dx / dist`.  Division by zero yields NaN: in the source the only
way `dist = 0` arises for a finite input is `dx = 0`, i.e. `0/0 = nan`
(the IEEE `x/0 = ±inf` for `x ≠ 0` cannot occur there because
`dist = 0 ↔ dx = 0` over the reals, and a NaN numerator gives NaN anyway). -/
noncomputable def divN : Rn → ℝ → Rn
  | none, _ => none
  | some a, d => if d = 0 then none else some (a / d)

/-- `np.linspace a b n` at index `i` (`n` sample points, endpoints included). -/
noncomputable def linspace (a b : ℝ) (n : ℕ) (i : ℕ) : ℝ :=
  a + (b - a) * i / ((n : ℝ) - 1)

/-- `MagnifyTransform._trans_resolution` (the fixed table resolution). -/
def transResolution : ℕ := 1000

/-- Blend weight of `_get_transition`:
`t = 0.5 * (1 + np.cos((xi - r2) * np.pi / (r2 - r1)))`. -/
noncomputable def transT (r1 r2 xi : ℝ) : ℝ :=
  0.5 * (1 + Real.cos ((xi - r2) * Real.pi / (r2 - r1)))

/-- The sampled inverse-table value of `_get_transition`:
`yi = xi * t + xi * (1 - t) / m`. -/
noncomputable def transYi (m r1 r2 xi : ℝ) : ℝ :=
  xi * transT r1 r2 xi + xi * (1 - transT r1 r2 xi) / m

/-- `xi = np.linspace(r1, r2, res)` of `_get_transition`. -/
noncomputable def xiTab (r1 r2 : ℝ) (i : ℕ) : ℝ :=
  linspace r1 r2 transResolution i

/-- `yi = xi * t + xi * (1-t) / m` of `_get_transition` (the inverse table). -/
noncomputable def yiTab (m r1 r2 : ℝ) (i : ℕ) : ℝ :=
  transYi m r1 r2 (xiTab r1 r2 i)

/-- `x = np.linspace(r1 / m, r2, res)` of `_get_transition`. -/
noncomputable def xTab (m r1 r2 : ℝ) (i : ℕ) : ℝ :=
  linspace (r1 / m) r2 transResolution i

/-- Largest index `j ≤ k` with `xp j ≤ v` (0 if there is none): the
segment-finding step of `np.interp` for an increasing knot sequence. -/
noncomputable def segIdx (xp : ℕ → ℝ) (v : ℝ) : ℕ → ℕ
  | 0 => 0
  | k + 1 => if xp (k + 1) ≤ v then k + 1 else segIdx xp v k

/-- `np.interp v xp fp` for `n` knots: clamps to `fp 0` below `xp 0` and to
`fp (n-1)` above `xp (n-1)`, and interpolates linearly on the segment
`[xp j, xp (j+1)]` that contains `v` otherwise. -/
noncomputable def interp (n : ℕ) (xp fp : ℕ → ℝ) (v : ℝ) : ℝ :=
  if v ≤ xp 0 then fp 0
  else if xp (n - 1) ≤ v then fp (n - 1)
  else
    fp (segIdx xp v (n - 2)) +
      (fp (segIdx xp v (n - 2) + 1) - fp (segIdx xp v (n - 2))) *
        (v - xp (segIdx xp v (n - 2))) /
        (xp (segIdx xp v (n - 2) + 1) - xp (segIdx xp v (n - 2)))

/-- `y = np.interp(x, yi, xi)` of `_get_transition` (the forward table). -/
noncomputable def yTab (m r1 r2 : ℝ) (i : ℕ) : ℝ :=
  interp transResolution (yiTab m r1 r2) (xiTab r1 r2) (xTab m r1 r2 i)

/-- `MagnifyTransform._get_transition` as a fallible computation.  The
Python body contains no `raise` and no parameter check: numpy division by
zero or a reversed `linspace` produce values (with at most a runtime
warning), never an exception, so the embedding always returns `Except.ok`
with the pair `(y, yi)` that the source stores in `self._trans`. -/
noncomputable def getTransitionE (m r1 r2 : ℝ) :
    Except Unit ((ℕ → ℝ) × (ℕ → ℝ)) :=
  Except.ok (yTab m r1 r2, yiTab m r1 r2)

/-- Table index of `MagnifyTransform.map`:
`tind = (dist - lo) * len(tab) / (hi - lo)`, then
`np.clip(tind, 0, len(tab)-1)` and `astype(int)` (truncation; the value is
nonnegative after the clip, so truncation is the floor). -/
noncomputable def tableIdx (lo hi dist : ℝ) : ℕ :=
  (Int.floor (min (max ((dist - lo) * (transResolution : ℝ) / (hi - lo)) 0)
    ((transResolution : ℝ) - 1))).toNat

/-- `MagnifyTransform.map` (with `_inverse = inv`) on a single point.
Follows the source line by line: `dx = x - c`;
`dist = sqrt(sum(dx**2))`; `dist[np.isnan(dist)] = 0` (NaN distances are
replaced by 0 before anything else uses them); `unit = dx / dist` (NaN
when `dist = 0`); then the three-region selection — magnified inner
region (`dist < r1/m`, resp. `r1` for the inverse), untouched outer
region (`dist > r2`), and table lookup in the transition band. -/
noncomputable def mapPoint (inv : Bool) (c : ℝ × ℝ) (m r1 r2 : ℝ)
    (p : Rn × Rn) : Rn × Rn :=
  let dx1 := subN p.1 (some c.1)
  let dx2 := subN p.2 (some c.2)
  let distRaw := sqrtN (addN (mulN dx1 dx1) (mulN dx2 dx2))
  let dist : ℝ := distRaw.getD 0
  let u1 := divN dx1 dist
  let u2 := divN dx2 dist
  if (if inv then dist < r1 else dist < r1 / m) then
    let s : ℝ := if inv then dist / m else dist * m
    (addN (some c.1) (mulN u1 (some s)), addN (some c.2) (mulN u2 (some s)))
  else if r2 < dist then p
  else
    let s : ℝ :=
      if inv then yiTab m r1 r2 (tableIdx r1 r2 dist)
      else yTab m r1 r2 (tableIdx (r1 / m) r2 dist)
    (addN (some c.1) (mulN u1 (some s)), addN (some c.2) (mulN u2 (some s)))

/-- `MagnifyTransform.imap`: `self.map(coords, _inverse=True)`. -/
noncomputable def imapPoint (c : ℝ × ℝ) (m r1 r2 : ℝ) (p : Rn × Rn) : Rn × Rn :=
  mapPoint true c m r1 r2 p

/-- `s = 0.0001 ** dt` of `MagCamera.on_timer`. -/
noncomputable def decay (dt : ℝ) : ℝ := (0.0001 : ℝ) ^ dt

/-- Wheel branch of `MagCamera.view_mouse_event`:
`m = mag_target * 1.2 ** delta; m = m if m > 1 else 1`. -/
noncomputable def wheelTarget (magTarget delta : ℝ) : ℝ :=
  if 1 < magTarget * (1.2 : ℝ) ^ delta then magTarget * (1.2 : ℝ) ^ delta else 1

/-- One per-coordinate conjunct of the center part of the convergence test
`np.all(np.abs((c - c1) / c1) < 1e-5)`.  The guard `c1 ≠ 0` models IEEE
division: for `c1 = 0` numpy yields `±inf` or `nan`, and both make the
comparison `< 1e-5` false. -/
def coordOK (c c1 : ℝ) : Prop := c1 ≠ 0 ∧ |(c - c1) / c1| < 1e-5

/-- Magnification part of the convergence test
`np.abs(np.log(m / mag.magnification)) < 1e-3`.  The guard
`0 < mNew / mOld` models IEEE `log`: a nonpositive argument gives `nan`
or `-inf`, and both make the comparison false. -/
def magOK (mOld mNew : ℝ) : Prop :=
  0 < mNew / mOld ∧ |Real.log (mNew / mOld)| < 1e-3

/-- `np.allclose(old, new)` on the 2-vector center, with numpy defaults
`atol = 1e-8`, `rtol = 1e-5`: `|old - new| ≤ atol + rtol * |new|` in every
coordinate.  This is the early-return guard of the `center` setter. -/
def allcloseC (ax ay bx by' : ℝ) : Prop :=
  |ax - bx| ≤ 1e-8 + 1e-5 * |bx| ∧ |ay - by'| ≤ 1e-8 + 1e-5 * |by'|

/-- Animation state owned by `MagCamera`: lens center, lens magnification,
and whether the periodic timer is running. -/
structure CamState where
  cx : ℝ
  cy : ℝ
  mg : ℝ
  running : Bool

open Classical in
/-- `MagCamera.on_timer` for a timer event with elapsed time `dt`, pointer
position `(px, py)` and zoom target `T`:
`c1 = c*s + mouse_pos*(1-s)`; `m = mag*s + target*(1-s)`; if the combined
convergence test passes, the timer is stopped; then `mag.center = c1`
(a no-op when `np.allclose(center, c1)`) and `mag.magnification = m`
(a no-op when equal, which assigns the same value either way). -/
noncomputable def onTimer (px py T dt : ℝ) (st : CamState) : CamState :=
  let s := decay dt
  let c1x := st.cx * s + px * (1 - s)
  let c1y := st.cy * s + py * (1 - s)
  let m := st.mg * s + T * (1 - s)
  { cx := if allcloseC st.cx st.cy c1x c1y then st.cx else c1x
    cy := if allcloseC st.cx st.cy c1x c1y then st.cy else c1y
    mg := if st.mg = m then st.mg else m
    running :=
      if coordOK st.cx c1x ∧ coordOK st.cy c1y ∧ magOK st.mg m then false
      else st.running }

/-- One timer slot: the timer invokes `on_timer` only while it is running. -/
noncomputable def camStep (px py T dt : ℝ) (st : CamState) : CamState :=
  if st.running then onTimer px py T dt st else st

/-! ## Basic facts about the blend weight and the builder -/

/-- C3 counterexample: at the concrete valid radii `r1 = 1 < 2 = r2`, the
blend weight at `xi = r1` is `0`, not `1` as the claim states: the cosine
argument there is `-π`, so `t(r1) = 0.5 * (1 + cos(-π)) = 0`. -/
theorem transT_at_r1_ne_one : transT 1 2 1 ≠ 1 := by
  unfold transT
  have h : ((1 : ℝ) - 2) * Real.pi / (2 - 1) = -Real.pi := by ring
  rw [h, Real.cos_neg, Real.cos_pi]
  norm_num

/-- C3 (amended): for every valid pair `r1 < r2`, the blend weight
`t(xi) = 0.5 * (1 + cos((xi - r2) * π / (r2 - r1)))` equals `0` at
`xi = r1` and `1` at `xi = r2` (the claim stated the two endpoint values
the other way round). -/
theorem transT_endpoint_values (r1 r2 : ℝ) (h : r1 < r2) :
    transT r1 r2 r1 = 0 ∧ transT r1 r2 r2 = 1 := by
  have hne : r2 - r1 ≠ 0 := sub_ne_zero.mpr (ne_of_gt h)
  constructor
  · unfold transT
    have harg : (r1 - r2) * Real.pi / (r2 - r1) = -Real.pi := by
      field_simp
      ring
    rw [harg, Real.cos_neg, Real.cos_pi]
    ring
  · unfold transT
    have harg : (r2 - r2) * Real.pi / (r2 - r1) = 0 := by
      rw [sub_self, zero_mul, zero_div]
    rw [harg, Real.cos_zero]
    ring

/-- Witness for `transT_endpoint_values` at `r1 = 1`, `r2 = 2`. -/
theorem transT_endpoint_values_witness :
    (1 : ℝ) < 2 ∧ (transT 1 2 1 = 0 ∧ transT 1 2 2 = 1) :=
  ⟨by norm_num, transT_endpoint_values 1 2 (by norm_num)⟩

/-- C4 counterexample: at `m = 5`, `r1 = 2`, `r2 = 1` the radii violate
`r1 < r2` (`r2 ≤ r1`), yet the table build returns successfully — the
source contains no parameter validation and no raise path at all. -/
theorem build_no_error_on_bad_radii :
    (1 : ℝ) ≤ 2 ∧ (getTransitionE 5 2 1).isOk = true :=
  ⟨by norm_num, rfl⟩

/-- C4 (amended): the transition-table build never fails: for every
parameter triple — including `r1 ≤ 0` or `r2 ≤ r1` — it returns the
arrays computed by the unvalidated numpy formulas.  There is no
`InvalidParameters` error anywhere in the source. -/
theorem build_never_fails (m r1 r2 : ℝ) :
    getTransitionE m r1 r2 = Except.ok (yTab m r1 r2, yiTab m r1 r2) := rfl

/-! ## Wheel-event zoom target (C8) -/

/-- C8: a wheel event with `delta.y = 1` at `target = 3` yields
`3 * 1.2 = 3.6`; the updated target is never below `1`; and whenever the
multiplicative update would fall below `1` it is clamped to exactly `1`. -/
theorem wheel_target_update :
    wheelTarget 3 1 = 3.6 ∧ (∀ t d : ℝ, 1 ≤ wheelTarget t d) ∧
      ∀ t d : ℝ, t * (1.2 : ℝ) ^ d < 1 → wheelTarget t d = 1 := by
  refine ⟨?_, ?_, ?_⟩
  · unfold wheelTarget
    rw [Real.rpow_one]
    norm_num
  · intro t d
    unfold wheelTarget
    split_ifs with h
    · linarith
    · exact le_refl 1
  · intro t d h
    unfold wheelTarget
    rw [if_neg (by linarith)]

/-- Witness for `wheel_target_update`: `0.5 * 1.2^0 = 0.5 < 1` clamps. -/
theorem wheel_target_update_witness :
    (1 / 2 : ℝ) * (1.2 : ℝ) ^ (0 : ℝ) < 1 ∧ wheelTarget (1 / 2) 0 = 1 := by
  have h : (1 / 2 : ℝ) * (1.2 : ℝ) ^ (0 : ℝ) < 1 := by
    rw [Real.rpow_zero]
    norm_num
  exact ⟨h, wheel_target_update.2.2 _ _ h⟩

/-! ## Tick magnification update is linear, not log-space (C2) -/

/-- The decay constant at `dt = 1/4`: `0.0001 ^ 0.25 = 0.1`. -/
theorem decay_quarter : decay (1 / 4) = 0.1 := by
  unfold decay
  have h1 : (0.0001 : ℝ) = (0.1 : ℝ) ^ (4 : ℝ) := by
    rw [show (4 : ℝ) = ((4 : ℕ) : ℝ) by norm_num, Real.rpow_natCast]
    norm_num
  rw [h1, ← Real.rpow_mul (by norm_num : (0 : ℝ) ≤ 0.1)]
  rw [show (4 : ℝ) * (1 / 4) = 1 by norm_num, Real.rpow_one]

/-- C2 counterexample: on a tick with `dt = 1/4` (so `decay = 0.1`) from
`current_magnification = 1` toward `target = 5`, the code's new
magnification is `1*0.1 + 5*0.9 = 4.6`, while the claimed log-space
interpolation gives `exp(log 1 * 0.1 + log 5 * 0.9) = 5^0.9 ≈ 4.257`.
They differ: the code interpolates linearly, not in log space. -/
theorem tick_mag_not_log_interp :
    (onTimer 1 1 5 (1 / 4) ⟨0, 0, 1, true⟩).mg ≠
      Real.exp (Real.log 1 * decay (1 / 4) + Real.log 5 * (1 - decay (1 / 4))) := by
  have hs : decay (1 / 4) = 0.1 := decay_quarter
  have hmg : (onTimer 1 1 5 (1 / 4) ⟨0, 0, 1, true⟩).mg = 4.6 := by
    simp only [onTimer, hs]
    norm_num
  rw [hmg, Real.log_one, zero_mul, zero_add, hs]
  have h59 : Real.exp (Real.log 5 * (1 - (0.1 : ℝ))) = (5 : ℝ) ^ (0.9 : ℝ) := by
    rw [Real.rpow_def_of_pos (by norm_num : (0 : ℝ) < 5)]
    norm_num
  rw [h59]
  intro hEq
  have h10 : ((5 : ℝ) ^ (0.9 : ℝ)) ^ (10 : ℕ) = (5 : ℝ) ^ (9 : ℕ) := by
    rw [← Real.rpow_natCast ((5 : ℝ) ^ (0.9 : ℝ)) 10,
      ← Real.rpow_mul (by norm_num : (0 : ℝ) ≤ 5)]
    rw [show (0.9 : ℝ) * ((10 : ℕ) : ℝ) = ((9 : ℕ) : ℝ) by norm_num,
      Real.rpow_natCast]
  rw [← hEq] at h10
  norm_num at h10

/-- C2 (amended): on every tick the new magnification is the linear
interpolation `current * decay + target * (1 - decay)` with
`decay = 0.0001 ^ dt` — not a log-space interpolation. -/
theorem tick_mag_linear_interp (px py T dt : ℝ) (st : CamState) :
    (onTimer px py T dt st).mg = st.mg * decay dt + T * (1 - decay dt) := by
  simp only [onTimer]
  split_ifs with h
  · exact h
  · rfl

/-! ## The CPU map at the lens center: NaN, not identity (C1, C5, C7) -/

/-- C5: at the lens center (`dist = 0`, parameters `center = (0,0)`,
`m = 5`, `radii = (7,10)`) the CPU forward map does NOT return the point
unchanged: `unit = dx / dist` is `0/0 = NaN`, the inner branch computes
`center + NaN * 0 = NaN`, and the result is `(NaN, NaN)` — unlike the
GLSL shader in the same file, which guards `dist == 0` and returns `pos`. -/
theorem map_center_is_nan :
    mapPoint false (0, 0) 5 7 10 (some 0, some 0) = (none, none) ∧
      mapPoint false (0, 0) 5 7 10 (some 0, some 0) ≠ (some 0, some 0) := by
  have h : mapPoint false (0, 0) 5 7 10 (some 0, some 0) = (none, none) := by
    simp only [mapPoint, subN, mulN, addN, sqrtN, divN]
    norm_num [Real.sqrt_zero]
  refine ⟨h, ?_⟩
  rw [h]
  intro hc
  exact Option.noConfusion (congrArg Prod.fst hc)

/-! ## The convergence test can never pass when a center coordinate and the
matching pointer coordinate are both exactly zero (C10) -/

/-- One step of the stopped-or-ticking camera preserves "running, with a
shared zero coordinate": when `c` and the pointer agree on a zero
coordinate, the new value of that coordinate of `c1` is again `0`, the
per-coordinate test `|(c - c1)/c1| < 1e-5` is a `0/0` comparison (false
in IEEE arithmetic, modelled by the `c1 ≠ 0` guard of `coordOK`), so the
convergence conjunction is false and the timer is not stopped. -/
theorem camStep_keeps_running (px py T dt : ℝ) (st : CamState)
    (hz : (st.cx = 0 ∧ px = 0) ∨ (st.cy = 0 ∧ py = 0)) (hr : st.running = true) :
    (camStep px py T dt st).running = true ∧
      (((camStep px py T dt st).cx = 0 ∧ px = 0) ∨
        ((camStep px py T dt st).cy = 0 ∧ py = 0)) := by
  rcases hz with ⟨hc, hp⟩ | ⟨hc, hp⟩
  · have hc1 : st.cx * decay dt + px * (1 - decay dt) = 0 := by
      rw [hc, hp]; ring
    constructor
    · simp only [camStep, hr, if_true, onTimer]
      rw [if_neg (fun h => h.1.1 hc1)]
    · left
      refine ⟨?_, hp⟩
      simp only [camStep, hr, if_true, onTimer]
      split_ifs with h
      · exact hc
      · exact hc1
  · have hc1 : st.cy * decay dt + py * (1 - decay dt) = 0 := by
      rw [hc, hp]; ring
    constructor
    · simp only [camStep, hr, if_true, onTimer]
      rw [if_neg (fun h => h.2.1.1 hc1)]
    · right
      refine ⟨?_, hp⟩
      simp only [camStep, hr, if_true, onTimer]
      split_ifs with h
      · exact hc
      · exact hc1

/-- C10: if the pointer position and the current lens center share a
coordinate that is exactly `0`, the tick's convergence test divides that
coordinate's change by the new value `0` (`0/0`, NaN in numpy), the
combined test is false, and the periodic timer is never stopped, no
matter how many ticks run. -/
theorem tick_never_stops_on_shared_zero (px py T dt : ℝ) (st : CamState)
    (hz : (st.cx = 0 ∧ px = 0) ∨ (st.cy = 0 ∧ py = 0)) (hr : st.running = true) :
    ∀ k : ℕ, ((camStep px py T dt)^[k] st).running = true := by
  have main : ∀ (k : ℕ) (s : CamState),
      ((s.cx = 0 ∧ px = 0) ∨ (s.cy = 0 ∧ py = 0)) → s.running = true →
      ((camStep px py T dt)^[k] s).running = true := by
    intro k
    induction k with
    | zero => intro s _ hrs; simpa using hrs
    | succ n ih =>
      intro s hzs hrs
      rw [Function.iterate_succ_apply]
      exact ih _ (camStep_keeps_running px py T dt s hzs hrs).2
        (camStep_keeps_running px py T dt s hzs hrs).1
  intro k
  exact main k st hz hr

/-- Witness for `tick_never_stops_on_shared_zero`: pointer `(0, 1)` and
center `(0, 2)` share the zero `x` coordinate; after 5 ticks the timer is
still running. -/
theorem tick_never_stops_on_shared_zero_witness :
    ((0 : ℝ) = 0 ∧ (0 : ℝ) = 0) ∧ (CamState.mk 0 2 3 true).running = true ∧
      ((camStep 0 1 5 0.016)^[5] (CamState.mk 0 2 3 true)).running = true := by
  refine ⟨⟨rfl, rfl⟩, rfl, ?_⟩
  exact tick_never_stops_on_shared_zero 0 1 5 0.016 (CamState.mk 0 2 3 true)
    (Or.inl ⟨rfl, rfl⟩) rfl 5

/-- C7: with `magnification = 1` the CPU forward map is NOT the identity
for every point: at `p = center` it returns `(NaN, NaN)` (the `0/0` unit
vector again), whereas the GLSL shader short-circuits `$mag == 1` and
returns `pos`.  The CPU path has no such short-circuit. -/
theorem map_mag_one_center_not_identity :
    mapPoint false (0, 0) 1 7 10 (some 0, some 0) = (none, none) ∧
      mapPoint false (0, 0) 1 7 10 (some 0, some 0) ≠ (some 0, some 0) := by
  have h : mapPoint false (0, 0) 1 7 10 (some 0, some 0) = (none, none) := by
    simp only [mapPoint, subN, mulN, addN, sqrtN, divN]
    norm_num [Real.sqrt_zero]
  refine ⟨h, ?_⟩
  rw [h]
  intro hc
  exact Option.noConfusion (congrArg Prod.fst hc)

/-- C1: the forward-then-inverse round trip fails at the lens center: the
forward map of the center is `(NaN, NaN)` and the inverse map of that is
again `(NaN, NaN)`, so `imap(map(p))` is not within any tolerance of
`p = (0,0)` — the inner region (`dist < r1/m`) includes `dist = 0`,
where the unguarded `unit = dx / dist` division produces NaN. -/
theorem roundtrip_center_is_nan :
    imapPoint (0, 0) 5 7 10 (mapPoint false (0, 0) 5 7 10 (some 0, some 0)) =
      (none, none) ∧
    imapPoint (0, 0) 5 7 10 (mapPoint false (0, 0) 5 7 10 (some 0, some 0)) ≠
      (some 0, some 0) := by
  have h0 : mapPoint false (0, 0) 5 7 10 (some 0, some 0) = (none, none) := by
    simp only [mapPoint, subN, mulN, addN, sqrtN, divN]
    norm_num [Real.sqrt_zero]
  have h : imapPoint (0, 0) 5 7 10 (mapPoint false (0, 0) 5 7 10 (some 0, some 0)) =
      (none, none) := by
    rw [h0]
    simp only [imapPoint, mapPoint, subN, mulN, addN, sqrtN, divN]
    norm_num
  refine ⟨h, ?_⟩
  rw [h]
  intro hc
  exact Option.noConfusion (congrArg Prod.fst hc)

/-! ## Monotonicity of `np.interp` on increasing knots -/

/-- The segment index never exceeds the searched bound. -/
theorem segIdx_le (xp : ℕ → ℝ) (v : ℝ) (k : ℕ) : segIdx xp v k ≤ k := by
  induction k with
  | zero => exact Nat.le_refl 0
  | succ n ih =>
    simp only [segIdx]
    split_ifs with h
    · exact Nat.le_refl _
    · exact ih.trans (Nat.le_succ n)

/-- The knot at the found segment index lies below the query value. -/
theorem segIdx_spec_le (xp : ℕ → ℝ) (v : ℝ) (h0 : xp 0 ≤ v) (k : ℕ) :
    xp (segIdx xp v k) ≤ v := by
  induction k with
  | zero => simpa [segIdx] using h0
  | succ n ih =>
    simp only [segIdx]
    split_ifs with h
    · exact h
    · exact ih

/-- Any index whose knot is below the query value is at most the found
segment index (the found index is the largest such). -/
theorem le_segIdx (xp : ℕ → ℝ) (v : ℝ) (i k : ℕ) (hik : i ≤ k) (hv : xp i ≤ v) :
    i ≤ segIdx xp v k := by
  induction k with
  | zero => simp only [segIdx]; exact hik
  | succ n ih =>
    simp only [segIdx]
    split_ifs with h
    · exact hik
    · have hin : i ≤ n := by
        rcases Nat.lt_or_ge i (n + 1) with hl | hg
        · exact Nat.lt_succ_iff.mp hl
        · exfalso
          have hie : i = n + 1 := Nat.le_antisymm hik hg
          rw [hie] at hv
          exact h hv
      exact ih hin

/-- In the interior branch, the interpolant is bracketed by the two table
values of its segment. -/
theorem interp_mid_bounds (n : ℕ) (xp fp : ℕ → ℝ) (hn : 2 ≤ n)
    (hxp : ∀ i j, i < j → j ≤ n - 1 → xp i < xp j)
    (hfp : ∀ i j, i ≤ j → j ≤ n - 1 → fp i ≤ fp j)
    (v : ℝ) (hv0 : ¬v ≤ xp 0) (hv1 : ¬xp (n - 1) ≤ v) :
    fp (segIdx xp v (n - 2)) ≤ interp n xp fp v ∧
      interp n xp fp v ≤ fp (segIdx xp v (n - 2) + 1) := by
  have hjle : segIdx xp v (n - 2) ≤ n - 2 := segIdx_le xp v (n - 2)
  have hxpj : xp (segIdx xp v (n - 2)) ≤ v :=
    segIdx_spec_le xp v (le_of_lt (lt_of_not_le hv0)) (n - 2)
  have hvlt : v < xp (segIdx xp v (n - 2) + 1) := by
    rcases Nat.lt_or_ge (segIdx xp v (n - 2)) (n - 2) with hl | hg
    · by_contra hc
      push_neg at hc
      have := le_segIdx xp v (segIdx xp v (n - 2) + 1) (n - 2) (by omega) hc
      omega
    · have hje : segIdx xp v (n - 2) + 1 = n - 1 := by omega
      rw [hje]
      exact lt_of_not_le hv1
  have hD : 0 < xp (segIdx xp v (n - 2) + 1) - xp (segIdx xp v (n - 2)) := by
    have := hxp (segIdx xp v (n - 2)) (segIdx xp v (n - 2) + 1)
      (Nat.lt_succ_self _) (by omega)
    linarith
  have hF : 0 ≤ fp (segIdx xp v (n - 2) + 1) - fp (segIdx xp v (n - 2)) := by
    have := hfp (segIdx xp v (n - 2)) (segIdx xp v (n - 2) + 1)
      (Nat.le_succ _) (by omega)
    linarith
  have hiv : interp n xp fp v =
      fp (segIdx xp v (n - 2)) +
        (fp (segIdx xp v (n - 2) + 1) - fp (segIdx xp v (n - 2))) *
          (v - xp (segIdx xp v (n - 2))) /
          (xp (segIdx xp v (n - 2) + 1) - xp (segIdx xp v (n - 2))) := by
    unfold interp
    rw [if_neg hv0, if_neg hv1]
  constructor
  · rw [hiv]
    have h0 : 0 ≤ (fp (segIdx xp v (n - 2) + 1) - fp (segIdx xp v (n - 2))) *
        (v - xp (segIdx xp v (n - 2))) /
        (xp (segIdx xp v (n - 2) + 1) - xp (segIdx xp v (n - 2))) :=
      div_nonneg (mul_nonneg hF (by linarith)) (by linarith)
    linarith
  · rw [hiv]
    have hle : (fp (segIdx xp v (n - 2) + 1) - fp (segIdx xp v (n - 2))) *
        (v - xp (segIdx xp v (n - 2))) /
        (xp (segIdx xp v (n - 2) + 1) - xp (segIdx xp v (n - 2))) ≤
        fp (segIdx xp v (n - 2) + 1) - fp (segIdx xp v (n - 2)) := by
      rw [div_le_iff₀ hD]
      exact mul_le_mul_of_nonneg_left (by linarith) hF
    linarith

/-- `np.interp` with strictly increasing knots and a non-decreasing value
table is monotone non-decreasing in the query value. -/
theorem interp_mono (n : ℕ) (xp fp : ℕ → ℝ) (hn : 2 ≤ n)
    (hxp : ∀ i j, i < j → j ≤ n - 1 → xp i < xp j)
    (hfp : ∀ i j, i ≤ j → j ≤ n - 1 → fp i ≤ fp j)
    (v w : ℝ) (hvw : v ≤ w) :
    interp n xp fp v ≤ interp n xp fp w := by
  by_cases hv0 : v ≤ xp 0
  · have hv : interp n xp fp v = fp 0 := by
      unfold interp
      rw [if_pos hv0]
    rw [hv]
    by_cases hw0 : w ≤ xp 0
    · unfold interp
      rw [if_pos hw0]
    · by_cases hw1 : xp (n - 1) ≤ w
      · have hww : interp n xp fp w = fp (n - 1) := by
          unfold interp
          rw [if_neg hw0, if_pos hw1]
        rw [hww]
        exact hfp 0 (n - 1) (Nat.zero_le _) (Nat.le_refl _)
      · have hb := interp_mid_bounds n xp fp hn hxp hfp w hw0 hw1
        have hjw := segIdx_le xp w (n - 2)
        exact le_trans (hfp 0 _ (Nat.zero_le _) (by omega)) hb.1
  · by_cases hv1 : xp (n - 1) ≤ v
    · have hw1 : xp (n - 1) ≤ w := le_trans hv1 hvw
      have hw0 : ¬w ≤ xp 0 := by
        intro hc
        have := hxp 0 (n - 1) (by omega) (Nat.le_refl _)
        linarith
      have hvv : interp n xp fp v = fp (n - 1) := by
        unfold interp
        rw [if_neg hv0, if_pos hv1]
      have hww : interp n xp fp w = fp (n - 1) := by
        unfold interp
        rw [if_neg hw0, if_pos hw1]
      rw [hvv, hww]
    · have hbv := interp_mid_bounds n xp fp hn hxp hfp v hv0 hv1
      have hw0 : ¬w ≤ xp 0 := fun hc => hv0 (le_trans hvw hc)
      have hjv := segIdx_le xp v (n - 2)
      by_cases hw1 : xp (n - 1) ≤ w
      · have hww : interp n xp fp w = fp (n - 1) := by
          unfold interp
          rw [if_neg hw0, if_pos hw1]
        rw [hww]
        exact le_trans hbv.2 (hfp _ _ (by omega) (Nat.le_refl _))
      · have hbw := interp_mid_bounds n xp fp hn hxp hfp w hw0 hw1
        have hjw := segIdx_le xp w (n - 2)
        have hjvw : segIdx xp v (n - 2) ≤ segIdx xp w (n - 2) := by
          apply le_segIdx xp w _ (n - 2) hjv
          exact le_trans (segIdx_spec_le xp v (le_of_lt (lt_of_not_le hv0)) (n - 2)) hvw
        rcases Nat.lt_or_ge (segIdx xp v (n - 2)) (segIdx xp w (n - 2)) with hlt | hge
        · have h1 : fp (segIdx xp v (n - 2) + 1) ≤ fp (segIdx xp w (n - 2)) :=
            hfp _ _ (by omega) (by omega)
          exact le_trans hbv.2 (le_trans h1 hbw.1)
        · have heq : segIdx xp w (n - 2) = segIdx xp v (n - 2) :=
            Nat.le_antisymm hge hjvw
          have hxpj : xp (segIdx xp v (n - 2)) ≤ v :=
            segIdx_spec_le xp v (le_of_lt (lt_of_not_le hv0)) (n - 2)
          have hD : 0 < xp (segIdx xp v (n - 2) + 1) - xp (segIdx xp v (n - 2)) := by
            have := hxp (segIdx xp v (n - 2)) (segIdx xp v (n - 2) + 1)
              (Nat.lt_succ_self _) (by omega)
            linarith
          have hF : 0 ≤ fp (segIdx xp v (n - 2) + 1) - fp (segIdx xp v (n - 2)) := by
            have := hfp (segIdx xp v (n - 2)) (segIdx xp v (n - 2) + 1)
              (Nat.le_succ _) (by omega)
            linarith
          have hiv : interp n xp fp v =
              fp (segIdx xp v (n - 2)) +
                (fp (segIdx xp v (n - 2) + 1) - fp (segIdx xp v (n - 2))) *
                  (v - xp (segIdx xp v (n - 2))) /
                  (xp (segIdx xp v (n - 2) + 1) - xp (segIdx xp v (n - 2))) := by
            unfold interp
            rw [if_neg hv0, if_neg hv1]
          have hiw : interp n xp fp w =
              fp (segIdx xp v (n - 2)) +
                (fp (segIdx xp v (n - 2) + 1) - fp (segIdx xp v (n - 2))) *
                  (w - xp (segIdx xp v (n - 2))) /
                  (xp (segIdx xp v (n - 2) + 1) - xp (segIdx xp v (n - 2))) := by
            unfold interp
            rw [if_neg hw0, if_neg hw1, heq]
          rw [hiv, hiw]
          have hnum : (fp (segIdx xp v (n - 2) + 1) - fp (segIdx xp v (n - 2))) *
              (v - xp (segIdx xp v (n - 2))) ≤
              (fp (segIdx xp v (n - 2) + 1) - fp (segIdx xp v (n - 2))) *
              (w - xp (segIdx xp v (n - 2))) :=
            mul_le_mul_of_nonneg_left (by linarith) hF
          have := (div_le_div_iff_of_pos_right hD).mpr hnum
          linarith

/-! ## Monotonicity of the transition tables (C6) -/

/-- Cosine is monotone non-decreasing on `[-π, 0]`. -/
theorem cos_mono_on_neg {a b : ℝ} (ha : -Real.pi ≤ a) (hb : b ≤ 0) (hab : a ≤ b) :
    Real.cos a ≤ Real.cos b := by
  rw [← Real.cos_neg a, ← Real.cos_neg b]
  exact Real.cos_le_cos_of_nonneg_of_le_pi (by linarith) (by linarith) (by linarith)

/-- The blend weight is nonnegative. -/
theorem transT_nonneg (r1 r2 u : ℝ) : 0 ≤ transT r1 r2 u := by
  unfold transT
  have := Real.neg_one_le_cos ((u - r2) * Real.pi / (r2 - r1))
  linarith

/-- The blend weight is at most one. -/
theorem transT_le_one (r1 r2 u : ℝ) : transT r1 r2 u ≤ 1 := by
  unfold transT
  have := Real.cos_le_one ((u - r2) * Real.pi / (r2 - r1))
  linarith

/-- The blend weight is monotone non-decreasing on `[r1, r2]`: its cosine
argument moves through `[-π, 0]`, where the cosine increases. -/
theorem transT_mono {r1 r2 a b : ℝ} (h12 : r1 < r2) (ha : r1 ≤ a)
    (hab : a ≤ b) (hb : b ≤ r2) : transT r1 r2 a ≤ transT r1 r2 b := by
  unfold transT
  have hpos : 0 < r2 - r1 := by linarith
  have hθb : (b - r2) * Real.pi / (r2 - r1) ≤ 0 := by
    rw [div_le_iff₀ hpos]
    nlinarith [Real.pi_pos]
  have hθa : -Real.pi ≤ (a - r2) * Real.pi / (r2 - r1) := by
    rw [le_div_iff₀ hpos]
    nlinarith [mul_nonneg Real.pi_pos.le (sub_nonneg.mpr ha)]
  have hθab : (a - r2) * Real.pi / (r2 - r1) ≤ (b - r2) * Real.pi / (r2 - r1) := by
    apply (div_le_div_iff_of_pos_right hpos).mpr
    exact mul_le_mul_of_nonneg_right (by linarith) Real.pi_pos.le
  have := cos_mono_on_neg hθa hθb hθab
  linarith

/-- The sampled inverse-table function `u ↦ u * t(u) + u * (1 - t(u)) / m`
is strictly increasing on `[r1, r2]` for positive `r1` and `m ≥ 1`: it is
the product of the increasing positive factor `u` and the non-decreasing
positive factor `1/m + t(u) * (1 - 1/m)`. -/
theorem transYi_strictMono {m r1 r2 a b : ℝ} (hm : 1 ≤ m) (hr1 : 0 < r1)
    (h12 : r1 < r2) (ha : r1 ≤ a) (hab : a < b) (hb : b ≤ r2) :
    transYi m r1 r2 a < transYi m r1 r2 b := by
  have hm0 : 0 < m := lt_of_lt_of_le one_pos hm
  have hta : 0 ≤ transT r1 r2 a := transT_nonneg r1 r2 a
  have htmono : transT r1 r2 a ≤ transT r1 r2 b :=
    transT_mono h12 ha (le_of_lt hab) hb
  have key : ∀ u : ℝ, transYi m r1 r2 u =
      u * (1 / m + transT r1 r2 u * (1 - 1 / m)) := by
    intro u
    unfold transYi
    ring
  rw [key a, key b]
  have h1m : 0 ≤ 1 - 1 / m := by
    have : 1 / m ≤ 1 := by
      rw [div_le_one hm0]
      exact hm
    linarith
  have hcA : 0 < 1 / m + transT r1 r2 a * (1 - 1 / m) := by
    have h0 : 0 < 1 / m := by positivity
    have h1 : 0 ≤ transT r1 r2 a * (1 - 1 / m) := mul_nonneg hta h1m
    linarith
  have hcAB : 1 / m + transT r1 r2 a * (1 - 1 / m) ≤
      1 / m + transT r1 r2 b * (1 - 1 / m) := by
    have := mul_le_mul_of_nonneg_right htmono h1m
    linarith
  have hb0 : 0 < b := by linarith
  calc a * (1 / m + transT r1 r2 a * (1 - 1 / m))
      < b * (1 / m + transT r1 r2 a * (1 - 1 / m)) :=
        mul_lt_mul_of_pos_right hab hcA
    _ ≤ b * (1 / m + transT r1 r2 b * (1 - 1 / m)) :=
        mul_le_mul_of_nonneg_left hcAB (le_of_lt hb0)

/-- `np.linspace` is strictly increasing in the index when `a < b`. -/
theorem linspace_lt {a b : ℝ} (hab : a < b) (n : ℕ) (hn : 2 ≤ n)
    {i j : ℕ} (hij : i < j) : linspace a b n i < linspace a b n j := by
  unfold linspace
  have hden : 0 < (n : ℝ) - 1 := by
    have : (2 : ℝ) ≤ (n : ℝ) := by exact_mod_cast hn
    linarith
  have hcast : (i : ℝ) < (j : ℝ) := by exact_mod_cast hij
  have hnum : (b - a) * (i : ℝ) < (b - a) * (j : ℝ) :=
    mul_lt_mul_of_pos_left hcast (by linarith)
  have := (div_lt_div_iff_of_pos_right hden).mpr hnum
  linarith

/-- `np.linspace` samples with index at most `n - 1` stay within `[a, b]`. -/
theorem linspace_mem {a b : ℝ} (hab : a ≤ b) (n : ℕ) (hn : 2 ≤ n)
    {i : ℕ} (hi : i ≤ n - 1) :
    a ≤ linspace a b n i ∧ linspace a b n i ≤ b := by
  unfold linspace
  have hden : 0 < (n : ℝ) - 1 := by
    have : (2 : ℝ) ≤ (n : ℝ) := by exact_mod_cast hn
    linarith
  have hi1 : i + 1 ≤ n := by omega
  have hiR : (i : ℝ) ≤ (n : ℝ) - 1 := by
    have : ((i : ℕ) : ℝ) + 1 ≤ (n : ℝ) := by exact_mod_cast hi1
    linarith
  constructor
  · have h0 : 0 ≤ (b - a) * (i : ℝ) / ((n : ℝ) - 1) :=
      div_nonneg (mul_nonneg (by linarith) (Nat.cast_nonneg i)) (le_of_lt hden)
    linarith
  · have h1 : (b - a) * (i : ℝ) / ((n : ℝ) - 1) ≤ b - a := by
      rw [div_le_iff₀ hden]
      have := mul_le_mul_of_nonneg_left hiR (sub_nonneg.mpr hab)
      linarith
    linarith

/-- The inverse table `yi` is strictly increasing in the index. -/
theorem yiTab_strictMono {m r1 r2 : ℝ} (hm : 1 ≤ m) (hr1 : 0 < r1)
    (h12 : r1 < r2) {i j : ℕ} (hij : i < j) (hj : j ≤ 999) :
    yiTab m r1 r2 i < yiTab m r1 r2 j := by
  unfold yiTab xiTab
  have hn : 2 ≤ transResolution := by norm_num [transResolution]
  have hi9 : i ≤ transResolution - 1 := by
    simp only [transResolution]
    omega
  have hj9 : j ≤ transResolution - 1 := by
    simp only [transResolution]
    omega
  exact transYi_strictMono hm hr1 h12
    (linspace_mem (le_of_lt h12) transResolution hn hi9).1
    (linspace_lt h12 transResolution hn hij)
    (linspace_mem (le_of_lt h12) transResolution hn hj9).2

/-- The forward table `y` is monotone non-decreasing in the index: it is
`np.interp` of the increasing sample positions `x` against the strictly
increasing knots `yi` with non-decreasing values `xi`. -/
theorem yTab_mono {m r1 r2 : ℝ} (hm : 1 < m) (hr1 : 0 < r1)
    (h12 : r1 < r2) {i j : ℕ} (hij : i ≤ j) (hj : j ≤ 999) :
    yTab m r1 r2 i ≤ yTab m r1 r2 j := by
  unfold yTab
  have hn : 2 ≤ transResolution := by norm_num [transResolution]
  have hx12 : r1 / m < r2 := lt_trans (div_lt_self hr1 hm) h12
  apply interp_mono transResolution _ _ hn
  · intro a b hab hb
    exact yiTab_strictMono (le_of_lt hm) hr1 h12 hab
      (by simpa [transResolution] using hb)
  · intro a b hab hb
    rcases Nat.eq_or_lt_of_le hab with rfl | hlt
    · exact le_refl _
    · exact le_of_lt (linspace_lt h12 transResolution hn hlt)
  · unfold xTab
    rcases Nat.eq_or_lt_of_le hij with rfl | hlt
    · exact le_refl _
    · exact le_of_lt (linspace_lt hx12 transResolution hn hlt)

/-- C6: for every valid parameter triple (`m > 1`, `0 < r1 < r2`) both
arrays built by `_get_transition` — the forward array `y` and the inverse
array `yi` — are monotone non-decreasing in the index. -/
theorem trans_tables_monotone (m r1 r2 : ℝ) (hm : 1 < m) (hr1 : 0 < r1)
    (h12 : r1 < r2) (i j : ℕ) (hij : i ≤ j) (hj : j ≤ transResolution - 1) :
    yTab m r1 r2 i ≤ yTab m r1 r2 j ∧ yiTab m r1 r2 i ≤ yiTab m r1 r2 j := by
  have hj9 : j ≤ 999 := by
    simpa [transResolution] using hj
  constructor
  · exact yTab_mono hm hr1 h12 hij hj9
  · rcases Nat.eq_or_lt_of_le hij with rfl | hlt
    · exact le_refl _
    · exact le_of_lt (yiTab_strictMono (le_of_lt hm) hr1 h12 hlt hj9)

/-- Witness for `trans_tables_monotone` at `m = 2`, `r1 = 1`, `r2 = 2`,
indices `0 ≤ 1`. -/
theorem trans_tables_monotone_witness :
    (1 : ℝ) < 2 ∧ (0 : ℝ) < 1 ∧ (1 : ℝ) < 2 ∧ 0 ≤ 1 ∧ 1 ≤ transResolution - 1 ∧
      (yTab 2 1 2 0 ≤ yTab 2 1 2 1 ∧ yiTab 2 1 2 0 ≤ yiTab 2 1 2 1) :=
  ⟨by norm_num, by norm_num, by norm_num, by norm_num,
    by norm_num [transResolution],
    trans_tables_monotone 2 1 2 (by norm_num) (by norm_num) (by norm_num) 0 1
      (by norm_num) (by norm_num [transResolution])⟩

/-! ## Camera convergence (C9): `target = 5` from `magnification = 1`,
ticks of `dt = 0.016`, pointer fixed at `(1, 1)` -/

/-- The decay constant at `dt = 0.016` satisfies `s^125 = 10^-8` exactly,
because `0.016 * 125 = 2` and `0.0001^2 = 10^-8`. -/
theorem decay_pow_125 : decay 0.016 ^ (125 : ℕ) = 1e-8 := by
  unfold decay
  rw [← Real.rpow_natCast ((0.0001 : ℝ) ^ (0.016 : ℝ)) 125,
    ← Real.rpow_mul (by norm_num : (0 : ℝ) ≤ 0.0001)]
  rw [show (0.016 : ℝ) * ((125 : ℕ) : ℝ) = 2 by norm_num]
  rw [show (2 : ℝ) = ((2 : ℕ) : ℝ) by norm_num, Real.rpow_natCast]
  norm_num

/-- The decay constant is positive. -/
theorem decay_pos : 0 < decay 0.016 :=
  Real.rpow_pos_of_pos (by norm_num) _

/-- The decay constant is below one. -/
theorem decay_lt_one : decay 0.016 < 1 :=
  Real.rpow_lt_one (by norm_num) (by norm_num) (by norm_num)

/-- Lower numeric bound on the decay constant. -/
theorem decay_lo : (0.8629 : ℝ) < decay 0.016 := by
  by_contra hc
  push_neg at hc
  have h1 : decay 0.016 ^ (125 : ℕ) ≤ (0.8629 : ℝ) ^ (125 : ℕ) :=
    pow_le_pow_left₀ decay_pos.le hc 125
  rw [decay_pow_125] at h1
  have h2 : (0.8629 : ℝ) ^ (125 : ℕ) < 1e-8 := by norm_num
  linarith

/-- Upper numeric bound on the decay constant. -/
theorem decay_hi : decay 0.016 < 0.8631 := by
  by_contra hc
  push_neg at hc
  have h1 : (0.8631 : ℝ) ^ (125 : ℕ) ≤ decay 0.016 ^ (125 : ℕ) :=
    pow_le_pow_left₀ (by norm_num) hc 125
  rw [decay_pow_125] at h1
  have h2 : (1e-8 : ℝ) < (0.8631 : ℝ) ^ (125 : ℕ) := by norm_num
  linarith

/-- One tick of the scenario before convergence: from the closed-form
state after `n ≤ 64` ticks, the convergence test still fails (the
relative center change is above `1e-5`), the `allclose` guard of the
center setter does not fire, and the state advances to the closed form
at `n + 1`. -/
theorem cam_step_formula (n : ℕ) (hn : n ≤ 64) :
    camStep 1 1 5 0.016 (CamState.mk (1 - decay 0.016 ^ n) (1 - decay 0.016 ^ n)
        (5 - 4 * decay 0.016 ^ n) true) =
      CamState.mk (1 - decay 0.016 ^ (n + 1)) (1 - decay 0.016 ^ (n + 1))
        (5 - 4 * decay 0.016 ^ (n + 1)) true := by
  have hs0 : (0 : ℝ) < decay 0.016 := decay_pos
  have hs1 : decay 0.016 < 1 := decay_lt_one
  have hlo : (0.8629 : ℝ) < decay 0.016 := decay_lo
  have hhi : decay 0.016 < 0.8631 := decay_hi
  set s := decay 0.016 with hsdef
  have hsn0 : (0 : ℝ) ≤ s ^ n := pow_nonneg hs0.le n
  have hsn1 : s ^ (n + 1) < 1 := pow_lt_one₀ hs0.le hs1 (Nat.succ_ne_zero n)
  have hsn1p : (0 : ℝ) ≤ s ^ (n + 1) := pow_nonneg hs0.le _
  have hkey : (1.001e-5 : ℝ) < s ^ n * (1 - s) := by
    have hA : (1.001e-5 : ℝ) < (0.8629 : ℝ) ^ (64 : ℕ) * 0.1369 := by norm_num
    have h64 : (0.8629 : ℝ) ^ (64 : ℕ) ≤ s ^ (64 : ℕ) :=
      pow_le_pow_left₀ (by norm_num) hlo.le 64
    have hj64 : s ^ (64 : ℕ) ≤ s ^ n := pow_le_pow_of_le_one hs0.le hs1.le hn
    have h1s : (0.1369 : ℝ) ≤ 1 - s := by linarith
    calc (1.001e-5 : ℝ) < (0.8629 : ℝ) ^ (64 : ℕ) * 0.1369 := hA
      _ ≤ s ^ (64 : ℕ) * 0.1369 := mul_le_mul_of_nonneg_right h64 (by norm_num)
      _ ≤ s ^ n * 0.1369 := mul_le_mul_of_nonneg_right hj64 (by norm_num)
      _ ≤ s ^ n * (1 - s) := mul_le_mul_of_nonneg_left h1s hsn0
  have hc1 : (1 - s ^ n) * s + 1 * (1 - s) = 1 - s ^ (n + 1) := by
    rw [pow_succ]
    ring
  have hm1 : (5 - 4 * s ^ n) * s + 5 * (1 - s) = 5 - 4 * s ^ (n + 1) := by
    rw [pow_succ]
    ring
  have hc1pos : (0 : ℝ) < 1 - s ^ (n + 1) := by linarith
  have hdiff : (1 - s ^ n) - ((1 - s ^ n) * s + 1 * (1 - s)) = -(s ^ n * (1 - s)) := by
    ring
  have hnac : ¬allcloseC (1 - s ^ n) (1 - s ^ n)
      ((1 - s ^ n) * s + 1 * (1 - s)) ((1 - s ^ n) * s + 1 * (1 - s)) := by
    intro hac
    have h1 := hac.1
    rw [hdiff, abs_neg, abs_of_nonneg (mul_nonneg hsn0 (by linarith))] at h1
    rw [hc1, abs_of_nonneg hc1pos.le] at h1
    nlinarith
  have hnstop : ¬(coordOK (1 - s ^ n) ((1 - s ^ n) * s + 1 * (1 - s)) ∧
      coordOK (1 - s ^ n) ((1 - s ^ n) * s + 1 * (1 - s)) ∧
      magOK (5 - 4 * s ^ n) ((5 - 4 * s ^ n) * s + 5 * (1 - s))) := by
    intro hstop
    have h1 := hstop.1.2
    rw [abs_div, hdiff, abs_neg,
      abs_of_nonneg (mul_nonneg hsn0 (by linarith)),
      hc1, abs_of_nonneg hc1pos.le] at h1
    have hge : s ^ n * (1 - s) ≤ s ^ n * (1 - s) / (1 - s ^ (n + 1)) := by
      rw [le_div_iff₀ hc1pos]
      exact mul_le_of_le_one_right (mul_nonneg hsn0 (by linarith)) (by linarith)
    linarith
  simp only [camStep, onTimer]
  rw [← hsdef]
  rw [if_neg hnac, if_neg hnstop]
  have hmg : (if (5 - 4 * s ^ n : ℝ) = (5 - 4 * s ^ n) * s + 5 * (1 - s)
      then (5 - 4 * s ^ n : ℝ) else (5 - 4 * s ^ n) * s + 5 * (1 - s)) =
      (5 - 4 * s ^ n) * s + 5 * (1 - s) := by
    split_ifs with h
    · exact h
    · rfl
  rw [hmg, hc1, hm1]
  rw [if_pos trivial]

/-- Closed form of the first 65 ticks of the scenario: the center moves as
`1 - s^j` per coordinate and the magnification as `5 - 4 s^j`, and the
timer keeps running. -/
theorem cam_traj (j : ℕ) (hj : j ≤ 65) :
    (camStep 1 1 5 0.016)^[j] (CamState.mk 0 0 1 true) =
      CamState.mk (1 - decay 0.016 ^ j) (1 - decay 0.016 ^ j)
        (5 - 4 * decay 0.016 ^ j) true := by
  induction j with
  | zero =>
    norm_num [Function.iterate_zero, CamState.mk.injEq]
  | succ n ih =>
    rw [Function.iterate_succ_apply', ih (by omega)]
    exact cam_step_formula n (by omega)

/-- At tick 66 the convergence test passes and the timer stops, with the
magnification at `5 - 4 s^66`. -/
theorem cam_stopped_at_66 :
    ((camStep 1 1 5 0.016)^[66] (CamState.mk 0 0 1 true)).running = false ∧
      ((camStep 1 1 5 0.016)^[66] (CamState.mk 0 0 1 true)).mg =
        5 - 4 * decay 0.016 ^ (66 : ℕ) := by
  rw [show (66 : ℕ) = 65 + 1 from rfl, Function.iterate_succ_apply',
    cam_traj 65 (le_refl 65)]
  have hs0 : (0 : ℝ) < decay 0.016 := decay_pos
  have hs1 : decay 0.016 < 1 := decay_lt_one
  have hlo : (0.8629 : ℝ) < decay 0.016 := decay_lo
  have hhi : decay 0.016 < 0.8631 := decay_hi
  set s := decay 0.016 with hsdef
  have hs65n : (0 : ℝ) ≤ s ^ (65 : ℕ) := pow_nonneg hs0.le _
  have hs66n : (0 : ℝ) ≤ s ^ (66 : ℕ) := pow_nonneg hs0.le _
  have h65hi : s ^ (65 : ℕ) ≤ (0.8631 : ℝ) ^ (65 : ℕ) :=
    pow_le_pow_left₀ hs0.le hhi.le 65
  have h66hi : s ^ (66 : ℕ) ≤ (0.8631 : ℝ) ^ (66 : ℕ) :=
    pow_le_pow_left₀ hs0.le hhi.le 66
  have hE : (0.8631 : ℝ) ^ (66 : ℕ) < 1e-4 := by norm_num
  have hD : (0.8631 : ℝ) ^ (65 : ℕ) * 0.1371 < 1e-5 * (1 - 1e-4) := by norm_num
  have hs66small : s ^ (66 : ℕ) < 1e-4 := lt_of_le_of_lt h66hi hE
  have hs65le1 : s ^ (65 : ℕ) ≤ 1 := pow_le_one₀ hs0.le hs1.le
  have hs66le1 : s ^ (66 : ℕ) ≤ 1 := pow_le_one₀ hs0.le hs1.le
  have hc1 : (1 - s ^ (65 : ℕ)) * s + 1 * (1 - s) = 1 - s ^ (66 : ℕ) := by
    rw [show (66 : ℕ) = 65 + 1 from rfl, pow_succ]
    ring
  have hm1 : (5 - 4 * s ^ (65 : ℕ)) * s + 5 * (1 - s) = 5 - 4 * s ^ (66 : ℕ) := by
    rw [show (66 : ℕ) = 65 + 1 from rfl, pow_succ]
    ring
  have hc1pos : (0 : ℝ) < 1 - s ^ (66 : ℕ) := by linarith
  have hdiff : (1 - s ^ (65 : ℕ)) - ((1 - s ^ (65 : ℕ)) * s + 1 * (1 - s)) =
      -(s ^ (65 : ℕ) * (1 - s)) := by
    rw [show (66 : ℕ) = 65 + 1 from rfl] at hc1
    ring
  have hlhs : s ^ (65 : ℕ) * (1 - s) ≤ (0.8631 : ℝ) ^ (65 : ℕ) * 0.1371 := by
    have h1s0 : (0 : ℝ) ≤ 1 - s := by linarith
    have h1s : 1 - s ≤ (0.1371 : ℝ) := by linarith
    exact mul_le_mul h65hi h1s h1s0 (by norm_num)
  have hcenter : s ^ (65 : ℕ) * (1 - s) < 1e-5 * (1 - s ^ (66 : ℕ)) := by
    have hrhs : (1e-5 : ℝ) * (1 - 1e-4) ≤ 1e-5 * (1 - s ^ (66 : ℕ)) := by
      nlinarith
    linarith
  have hcoord : coordOK (1 - s ^ (65 : ℕ)) ((1 - s ^ (65 : ℕ)) * s + 1 * (1 - s)) := by
    constructor
    · rw [hc1]
      exact ne_of_gt hc1pos
    · rw [abs_div, hdiff, abs_neg,
        abs_of_nonneg (mul_nonneg hs65n (by linarith)),
        hc1, abs_of_nonneg hc1pos.le]
      rw [div_lt_iff₀ hc1pos]
      linarith
  have hmold : (1 : ℝ) ≤ 5 - 4 * s ^ (65 : ℕ) := by linarith
  have hmnew : (1 : ℝ) ≤ 5 - 4 * s ^ (66 : ℕ) := by linarith
  have hratio1 : (1 : ℝ) ≤ (5 - 4 * s ^ (66 : ℕ)) / (5 - 4 * s ^ (65 : ℕ)) := by
    rw [le_div_iff₀ (by linarith : (0 : ℝ) < 5 - 4 * s ^ (65 : ℕ))]
    have : s ^ (66 : ℕ) ≤ s ^ (65 : ℕ) :=
      pow_le_pow_of_le_one hs0.le hs1.le (by omega)
    linarith
  have hmag : magOK (5 - 4 * s ^ (65 : ℕ)) ((5 - 4 * s ^ (65 : ℕ)) * s + 5 * (1 - s)) := by
    rw [magOK, hm1]
    constructor
    · exact lt_of_lt_of_le one_pos hratio1 |>.trans_le (le_refl _) |> fun h => h
    · have hlog1 : Real.log ((5 - 4 * s ^ (66 : ℕ)) / (5 - 4 * s ^ (65 : ℕ))) ≤
          (5 - 4 * s ^ (66 : ℕ)) / (5 - 4 * s ^ (65 : ℕ)) - 1 :=
        Real.log_le_sub_one_of_pos (by linarith)
      have hlog0 : 0 ≤ Real.log ((5 - 4 * s ^ (66 : ℕ)) / (5 - 4 * s ^ (65 : ℕ))) :=
        Real.log_nonneg hratio1
      have hub : (5 - 4 * s ^ (66 : ℕ)) / (5 - 4 * s ^ (65 : ℕ)) - 1 ≤
          4 * (s ^ (65 : ℕ) * (1 - s)) := by
        have he : (5 - 4 * s ^ (66 : ℕ)) / (5 - 4 * s ^ (65 : ℕ)) - 1 =
            4 * (s ^ (65 : ℕ) * (1 - s)) / (5 - 4 * s ^ (65 : ℕ)) := by
          rw [show (66 : ℕ) = 65 + 1 from rfl, pow_succ]
          field_simp
          ring
        rw [he]
        exact div_le_self (by nlinarith) hmold
      rw [abs_of_nonneg hlog0]
      have : 4 * (s ^ (65 : ℕ) * (1 - s)) < 1e-3 := by nlinarith
      linarith
  have hstopfull : coordOK (1 - s ^ (65 : ℕ)) ((1 - s ^ (65 : ℕ)) * s + 1 * (1 - s)) ∧
      coordOK (1 - s ^ (65 : ℕ)) ((1 - s ^ (65 : ℕ)) * s + 1 * (1 - s)) ∧
      magOK (5 - 4 * s ^ (65 : ℕ)) ((5 - 4 * s ^ (65 : ℕ)) * s + 5 * (1 - s)) :=
    ⟨hcoord, hcoord, hmag⟩
  have hmg : (if (5 - 4 * s ^ (65 : ℕ) : ℝ) =
      (5 - 4 * s ^ (65 : ℕ)) * s + 5 * (1 - s)
      then (5 - 4 * s ^ (65 : ℕ) : ℝ)
      else (5 - 4 * s ^ (65 : ℕ)) * s + 5 * (1 - s)) =
      (5 - 4 * s ^ (65 : ℕ)) * s + 5 * (1 - s) := by
    split_ifs with h
    · exact h
    · rfl
  refine ⟨?_, ?_⟩
  · simp only [camStep, onTimer]
    rw [← hsdef]
    rw [if_pos trivial]
    dsimp only
    rw [if_pos hstopfull]
  · simp only [camStep, onTimer]
    rw [← hsdef]
    rw [if_pos trivial]
    dsimp only
    rw [hmg, hm1]

/-- C9: starting from `current_magnification = 1`, `target = 5`, pointer
fixed at `(1, 1)` and center at the origin, iterating the tick with
`dt = 0.016` stops the timer in fewer than 2000 iterations (in fact at
tick 66), and the final magnification is within `1e-3` of the target in
log scale. -/
theorem camera_convergence :
    ∃ k : ℕ, k < 2000 ∧
      ((camStep 1 1 5 0.016)^[k] (CamState.mk 0 0 1 true)).running = false ∧
      |Real.log (((camStep 1 1 5 0.016)^[k] (CamState.mk 0 0 1 true)).mg / 5)| <
        1e-3 := by
  obtain ⟨hrun, hmg⟩ := cam_stopped_at_66
  refine ⟨66, by norm_num, hrun, ?_⟩
  rw [hmg]
  have hs0 : (0 : ℝ) < decay 0.016 := decay_pos
  have hs1 : decay 0.016 < 1 := decay_lt_one
  have hhi : decay 0.016 < 0.8631 := decay_hi
  set s := decay 0.016 with hsdef
  have hs66n : (0 : ℝ) ≤ s ^ (66 : ℕ) := pow_nonneg hs0.le _
  have h66hi : s ^ (66 : ℕ) ≤ (0.8631 : ℝ) ^ (66 : ℕ) :=
    pow_le_pow_left₀ hs0.le hhi.le 66
  have hE : (0.8631 : ℝ) ^ (66 : ℕ) < 1e-4 := by norm_num
  have hs66small : s ^ (66 : ℕ) < 1e-4 := lt_of_le_of_lt h66hi hE
  have hnum1 : (1 : ℝ) ≤ 5 - 4 * s ^ (66 : ℕ) := by linarith
  have hv_pos : (0 : ℝ) < (5 - 4 * s ^ (66 : ℕ)) / 5 :=
    div_pos (by linarith) (by norm_num)
  have hv_le1 : (5 - 4 * s ^ (66 : ℕ)) / 5 ≤ 1 := by
    rw [div_le_one (by norm_num : (0 : ℝ) < 5)]
    linarith
  have hlog_np : Real.log ((5 - 4 * s ^ (66 : ℕ)) / 5) ≤ 0 :=
    Real.log_nonpos hv_pos.le hv_le1
  rw [abs_of_nonpos hlog_np, ← Real.log_inv, inv_div]
  have hlog1 : Real.log (5 / (5 - 4 * s ^ (66 : ℕ))) ≤
      5 / (5 - 4 * s ^ (66 : ℕ)) - 1 :=
    Real.log_le_sub_one_of_pos (div_pos (by norm_num) (by linarith))
  have he : (5 : ℝ) / (5 - 4 * s ^ (66 : ℕ)) - 1 =
      4 * s ^ (66 : ℕ) / (5 - 4 * s ^ (66 : ℕ)) := by
    field_simp
  have hub : (4 : ℝ) * s ^ (66 : ℕ) / (5 - 4 * s ^ (66 : ℕ)) ≤ 4 * s ^ (66 : ℕ) :=
    div_le_self (mul_nonneg (by norm_num) hs66n) hnum1
  have h4 : (4 : ℝ) * s ^ (66 : ℕ) < 4e-4 := by linarith
  linarith
